import Mathlib

/-!
Shallow embedding of the `object-controller-tracker` Rust crate
(`src/lib.rs`) and verification of its specification claims.

The crate keeps a shared registry `InnerTracker<C>`:
  * `controllers : HashMap<Id, C>` with `type Id = u32`,
  * `next_id : Id`, incremented on each registration (wrapping `u32`
    arithmetic, as the design notes of the spec describe for the reference
    behavior).

We model the `HashMap` as an association list with the usual
insert-replaces / remove-key semantics (Rust `HashMap` keys are unique),
`u32` arithmetic as `Nat` modulo `2 ^ 32`, and the concurrent API as
explicit state passing: every operation that locks the mutex becomes a
function on the registry state, and the serialized histories of the real
program become traces of events (`track` and handle destruction).
-/

/-- Modulus of `u32`: `type Id = u32`, so the `next_id` counter lives in
`[0, 2^32)` and the increment of `next_id` wraps at `2 ^ 32`. -/
def u32Mod : Nat := 4294967296

/-- The shared registry state (`struct InnerTracker<C>`): the
identity-to-controller map and the next-identity counter. -/
structure InnerTracker (C : Type) where
  controllers : List (Nat × C)
  next_id : Nat
  deriving Repr, DecidableEq

/-- Membership test in the style of `HashMap::contains_key`, used to model insertion. -/
def hmContains {C : Type} (m : List (Nat × C)) (k : Nat) : Bool :=
  m.any (fun p => p.1 == k)

/-- Model of `HashMap::insert(k, v)`: replaces the value when the key is present,
otherwise adds a new entry. -/
def hmInsert {C : Type} (m : List (Nat × C)) (k : Nat) (v : C) : List (Nat × C) :=
  if hmContains m k then m.map (fun p => if p.1 == k then (k, v) else p)
  else m ++ [(k, v)]

/-- Model of `HashMap::remove(&k)`: drops the entry keyed `k` (keys are unique in a
`HashMap`, so filtering out key `k` removes exactly that entry). -/
def hmRemove {C : Type} (m : List (Nat × C)) (k : Nat) : List (Nat × C) :=
  m.filter (fun p => p.1 != k)

/-- Model of `HashMap::values()`: the sequence of stored controllers, in the
(unspecified) iteration order of the map. -/
def hmValues {C : Type} (m : List (Nat × C)) : List C :=
  m.map Prod.snd

/-- The keys of the map, in iteration order. -/
def hmKeys {C : Type} (m : List (Nat × C)) : List Nat :=
  m.map Prod.fst

/-- Model of `InnerTracker::register`: assigns `next_id` as the identity, inserts
the controller under it, increments the counter (wrapping `u32`), and
returns the identity together with the new state. -/
def InnerTracker.register {C : Type} (t : InnerTracker C) (controller : C) :
    Nat × InnerTracker C :=
  let id := t.next_id
  (id, { controllers := hmInsert t.controllers id controller,
         next_id := (t.next_id + 1) % u32Mod })

/-- Model of `InnerTracker::unregister`: removes the entry for `id` when present. -/
def InnerTracker.unregister {C : Type} (t : InnerTracker C) (id : Nat) :
    InnerTracker C :=
  { t with controllers := hmRemove t.controllers id }

/-- The object part of a tracked pair (`struct Tracked<T, C>`): the wrapped
object and the identity under which its controller is registered.  (The
`tracker` back-reference is the shared state we pass explicitly.) -/
structure Tracked (T C : Type) where
  id : Nat
  object : T
  deriving Repr, DecidableEq

namespace Tracker

/-- Model of `Tracker::new()`: an empty registry with the counter at zero. -/
def new (C : Type) : InnerTracker C :=
  { controllers := [], next_id := 0 }

/-- Model of `impl Default for Tracker`: `Self::new()`. -/
def Default (C : Type) : InnerTracker C :=
  new C

/-- Model of `Tracker::track(object, controller)`: locks the registry, registers the
controller, and wraps the object with the returned identity. -/
def track {T C : Type} (st : InnerTracker C) (object : T) (controller : C) :
    Tracked T C × InnerTracker C :=
  let r := st.register controller
  ({ id := r.1, object := object }, r.2)

/-- Model of `Tracker::track_pair(pair)`: `self.track(pair.0, pair.1)`. -/
def track_pair {T C : Type} (st : InnerTracker C) (pair : T × C) :
    Tracked T C × InnerTracker C :=
  track st pair.1 pair.2

/-- Model of `TrackerGuard::iter()`: iterator over the stored controllers
(`self.0.controllers.values()`), valid while the lock is held. -/
def guardIter {C : Type} (st : InnerTracker C) : List C :=
  hmValues st.controllers

/-- Model of `Tracker::for_each(f)`, that is `self.lock().iter().for_each(f)`.  The `FnMut`
closure is modeled as a fold over the visited controllers with an explicit
accumulator. -/
def for_each {C A : Type} (st : InnerTracker C) (f : A → C → A) (init : A) : A :=
  (guardIter st).foldl f init

end Tracker

namespace Tracked

/-- Model of `impl Drop for Tracked`: locks the registry and unregisters the
identity of this handle. -/
def drop {T C : Type} (st : InnerTracker C) (h : Tracked T C) : InnerTracker C :=
  st.unregister h.id

/-- Model of `impl Deref for Tracked`: `&self.object`. -/
def deref {T C : Type} (h : Tracked T C) : T :=
  h.object

/-- Mutation through `impl DerefMut for Tracked` (`&mut self.object`):
applying an update `f` through the handle updates exactly the wrapped
object. -/
def modifyThrough {T C : Type} (h : Tracked T C) (f : T → T) : Tracked T C :=
  { h with object := f h.object }

end Tracked

/-- The number of live entries in the registry map. -/
def liveCount {C : Type} (st : InnerTracker C) : Nat :=
  st.controllers.length

/-!  Histories.  The mutex serializes all registry operations, so every
execution is a sequence of events: a `track` call (the wrapped object is
irrelevant to the registry, so it is `Unit`), or the destruction of the
live handle carrying a given identity. -/

/-- One serialized registry event. -/
inductive Event (C : Type) where
  | track (controller : C)
  | drop (id : Nat)
  deriving Repr, DecidableEq

/-- A world: the shared registry state together with the identities of the
currently-live `Tracked` handles, in creation order. -/
structure World (C : Type) where
  st : InnerTracker C
  handles : List Nat
  deriving Repr, DecidableEq

/-- The initial world: a fresh tracker and no live handles. -/
def World.init (C : Type) : World C :=
  { st := Tracker.new C, handles := [] }

/-- One step: `track` registers a controller and creates a live handle
holding the returned identity; `drop` destroys the live handle holding
`i` (running the `Drop` impl of `Tracked`, which unregisters `i`). -/
def stepW {C : Type} (w : World C) : Event C → World C
  | Event.track c =>
      let r := Tracker.track w.st () c
      { st := r.2, handles := w.handles ++ [r.1.id] }
  | Event.drop i =>
      { st := Tracked.drop w.st (⟨i, ()⟩ : Tracked Unit C),
        handles := w.handles.erase i }

/-- Run a trace of events from a world. -/
def runFrom {C : Type} (w : World C) (tr : List (Event C)) : World C :=
  tr.foldl stepW w

/-- Run a trace of events from the initial world. -/
def run {C : Type} (tr : List (Event C)) : World C :=
  runFrom (World.init C) tr

/-- The number of `track` events in a trace. -/
def numTracks {C : Type} (tr : List (Event C)) : Nat :=
  tr.countP (fun e => match e with | Event.track _ => true | Event.drop _ => false)

/-- A trace of `n` consecutive `track` calls with controllers `cs 0`,
`cs 1`, .... -/
def tracksOnly (C : Type) (cs : Nat → C) (n : Nat) : List (Event C) :=
  (List.range n).map (fun j => Event.track (cs j))

/-! ### Basic map lemmas -/

theorem mem_hmKeys {C : Type} (m : List (Nat × C)) (i : Nat) :
    i ∈ hmKeys m ↔ ∃ c, (i, c) ∈ m := by
  simp only [hmKeys, List.mem_map]
  constructor
  · rintro ⟨⟨k, c⟩, hm, rfl⟩
    exact ⟨c, hm⟩
  · rintro ⟨c, hm⟩
    exact ⟨(i, c), hm, rfl⟩

theorem hmRemove_not_mem_keys {C : Type} (m : List (Nat × C)) (i : Nat) :
    i ∉ hmKeys (hmRemove m i) := by
  rw [mem_hmKeys]
  rintro ⟨c, hm⟩
  have := (List.mem_filter.mp hm).2
  simp at this

theorem hmRemove_idem {C : Type} (m : List (Nat × C)) (i : Nat) :
    hmRemove (hmRemove m i) i = hmRemove m i := by
  simp only [hmRemove, List.filter_filter, Bool.and_self]

theorem hmRemove_mem_other {C : Type} (m : List (Nat × C)) (i j : Nat) (c : C)
    (hne : j ≠ i) : (j, c) ∈ hmRemove m i ↔ (j, c) ∈ m := by
  simp only [hmRemove, List.mem_filter]
  constructor
  · exact fun h => h.1
  · intro h
    refine ⟨h, ?_⟩
    simpa using hne

theorem hmRemove_eq_self_iff {C : Type} (m : List (Nat × C)) (i : Nat) :
    hmRemove m i = m ↔ i ∉ hmKeys m := by
  constructor
  · intro heq hmem
    rw [mem_hmKeys] at hmem
    obtain ⟨c, hc⟩ := hmem
    have hlt : (hmRemove m i).length < m.length := by
      refine List.length_filter_lt_length_iff_exists.mpr ⟨(i, c), hc, ?_⟩
      simp
    rw [heq] at hlt
    exact absurd hlt (lt_irrefl _)
  · intro hmem
    refine List.filter_eq_self.mpr ?_
    rintro ⟨k, c⟩ hk
    by_contra hfalse
    simp only [bne_iff_ne, ne_eq, Decidable.not_not] at hfalse
    subst hfalse
    exact hmem ((mem_hmKeys m k).mpr ⟨c, hk⟩)

/-! ### C6, C7, C8, C9, C10 -/

/-- C6: `unregister` removes the entry for the given identity when it is
present (the identity is gone afterwards and every other entry is kept),
is the identity function exactly when the identity is absent (silent
no-op), and is idempotent. -/
theorem claim_C6_unregister_removes_noop_idempotent {C : Type}
    (st : InnerTracker C) (i : Nat) :
    i ∉ hmKeys (st.unregister i).controllers ∧
    (st.unregister i).unregister i = st.unregister i ∧
    (∀ j c, j ≠ i → (((j, c) ∈ (st.unregister i).controllers) ↔ (j, c) ∈ st.controllers)) ∧
    (st.unregister i = st ↔ i ∉ hmKeys st.controllers) := by
  refine ⟨hmRemove_not_mem_keys _ _, ?_, ?_, ?_⟩
  · simp only [InnerTracker.unregister]
    rw [hmRemove_idem]
  · intro j c hne
    exact hmRemove_mem_other st.controllers i j c hne
  · constructor
    · intro heq
      have : hmRemove st.controllers i = st.controllers :=
        congrArg InnerTracker.controllers heq
      exact (hmRemove_eq_self_iff _ _).mp this
    · intro habs
      show ({ st with controllers := hmRemove st.controllers i } : InnerTracker C) = st
      rw [(hmRemove_eq_self_iff _ _).mpr habs]

/-- C7: `track_pair(pair)` is `track(pair.0, pair.1)`: the resulting
registry state, handle identity, and wrapped object all coincide. -/
theorem claim_C7_track_pair_equiv_track {T C : Type} (st : InnerTracker C)
    (o : T) (c : C) :
    Tracker.track_pair st (o, c) = Tracker.track st o c ∧
    (Tracker.track_pair st (o, c)).2 = (Tracker.track st o c).2 ∧
    (Tracker.track_pair st (o, c)).1.id = (Tracker.track st o c).1.id ∧
    (Tracker.track_pair st (o, c)).1.object = (Tracker.track st o c).1.object :=
  ⟨rfl, rfl, rfl, rfl⟩

/-- C8: the handle returned by `track(object, controller)` is a transparent
wrapper: `Deref` yields exactly the object that was passed in, and mutating
through `DerefMut` updates exactly the wrapped object (the identity is
untouched and the new object is readable back). -/
theorem claim_C8_tracked_deref_transparent {T C : Type} (st : InnerTracker C)
    (o : T) (c : C) :
    (Tracker.track st o c).1.deref = o ∧
    (∀ f : T → T,
      ((Tracker.track st o c).1.modifyThrough f).deref = f o ∧
      ((Tracker.track st o c).1.modifyThrough f).id = (Tracker.track st o c).1.id) :=
  ⟨rfl, fun _ => ⟨rfl, rfl⟩⟩

/-- C9: destroying a handle (hence `unregister`) never touches the
`next_id` counter: any sequence of unregistrations leaves the counter
unchanged, so the next identity issued is the same as if no removal had
occurred; only the controller map is modified. -/
theorem claim_C9_unregister_preserves_counter {C : Type} (st : InnerTracker C)
    (ids : List Nat) (c : C) :
    (ids.foldl InnerTracker.unregister st).next_id = st.next_id ∧
    ((ids.foldl InnerTracker.unregister st).register c).1 = (st.register c).1 ∧
    (∀ (T : Type) (h : Tracked T C), (Tracked.drop st h).next_id = st.next_id) := by
  have key : ∀ (ids : List Nat) (st : InnerTracker C),
      (ids.foldl InnerTracker.unregister st).next_id = st.next_id := by
    intro ids
    induction ids with
    | nil => intro st; rfl
    | cons i rest ih =>
        intro st
        simpa [List.foldl_cons] using ih (st.unregister i)
  refine ⟨key ids st, ?_, fun T h => rfl⟩
  show (ids.foldl InnerTracker.unregister st).next_id = st.next_id
  exact key ids st

/-- C10: `Tracker::default()` is `Tracker::new()`: an empty controller map
with the identity counter at zero. -/
theorem claim_C10_default_eq_new (C : Type) :
    Tracker.Default C = Tracker.new C ∧
    (Tracker.Default C).controllers = [] ∧
    (Tracker.Default C).next_id = 0 :=
  ⟨rfl, rfl, rfl⟩

theorem hmContains_iff {C : Type} (m : List (Nat × C)) (k : Nat) :
    hmContains m k = true ↔ k ∈ hmKeys m := by
  simp only [hmContains, List.any_eq_true, mem_hmKeys]
  constructor
  · rintro ⟨⟨j, c⟩, hm, he⟩
    simp only [beq_iff_eq] at he
    exact ⟨c, by simpa [he] using hm⟩
  · rintro ⟨c, hm⟩
    exact ⟨(k, c), hm, by simp⟩

theorem hmKeys_hmInsert_of_mem {C : Type} (m : List (Nat × C)) (k : Nat) (v : C)
    (h : k ∈ hmKeys m) : hmKeys (hmInsert m k v) = hmKeys m := by
  rw [hmInsert, if_pos ((hmContains_iff m k).mpr h)]
  simp only [hmKeys, List.map_map]
  refine List.map_congr_left ?_
  rintro ⟨j, c⟩ hm
  by_cases hjk : j = k
  · simp [hjk]
  · simp [hjk]

theorem hmKeys_hmInsert_of_not_mem {C : Type} (m : List (Nat × C)) (k : Nat) (v : C)
    (h : k ∉ hmKeys m) : hmKeys (hmInsert m k v) = hmKeys m ++ [k] := by
  rw [hmInsert, if_neg]
  · simp [hmKeys]
  · intro hc
    exact h ((hmContains_iff m k).mp hc)

theorem mem_hmKeys_hmInsert {C : Type} (m : List (Nat × C)) (k : Nat) (v : C) (i : Nat) :
    i ∈ hmKeys (hmInsert m k v) ↔ i = k ∨ i ∈ hmKeys m := by
  by_cases h : k ∈ hmKeys m
  · rw [hmKeys_hmInsert_of_mem m k v h]
    constructor
    · exact fun hi => Or.inr hi
    · rintro (rfl | hi)
      · exact h
      · exact hi
  · rw [hmKeys_hmInsert_of_not_mem m k v h]
    simp [or_comm]

theorem hmInsert_length_of_mem {C : Type} (m : List (Nat × C)) (k : Nat) (v : C)
    (h : k ∈ hmKeys m) : (hmInsert m k v).length = m.length := by
  rw [hmInsert, if_pos ((hmContains_iff m k).mpr h)]
  exact List.length_map m _

theorem hmInsert_length_of_not_mem {C : Type} (m : List (Nat × C)) (k : Nat) (v : C)
    (h : k ∉ hmKeys m) : (hmInsert m k v).length = m.length + 1 := by
  rw [hmInsert, if_neg]
  · simp
  · intro hc
    exact h ((hmContains_iff m k).mp hc)

theorem hmInsert_nodup_keys {C : Type} (m : List (Nat × C)) (k : Nat) (v : C)
    (h : (hmKeys m).Nodup) : (hmKeys (hmInsert m k v)).Nodup := by
  by_cases hk : k ∈ hmKeys m
  · rw [hmKeys_hmInsert_of_mem m k v hk]
    exact h
  · rw [hmKeys_hmInsert_of_not_mem m k v hk]
    refine h.append (List.nodup_singleton k) (List.disjoint_left.mpr ?_)
    intro a ha hb
    rw [List.mem_singleton] at hb
    exact hk (hb ▸ ha)

theorem hmKeys_hmRemove {C : Type} (m : List (Nat × C)) (i : Nat) :
    hmKeys (hmRemove m i) = (hmKeys m).filter (fun k => k != i) := by
  induction m with
  | nil => rfl
  | cons hd tl ih =>
      by_cases h : hd.1 = i
      · simp [hmRemove, hmKeys, h] at ih ⊢
        exact ih
      · have hb : (hd.1 != i) = true := by simpa using h
        simp [hmRemove, hmKeys, List.filter_cons, hb] at ih ⊢
        exact ih

theorem hmRemove_nodup_keys {C : Type} (m : List (Nat × C)) (i : Nat)
    (h : (hmKeys m).Nodup) : (hmKeys (hmRemove m i)).Nodup := by
  rw [hmKeys_hmRemove]
  exact h.filter _

theorem hmRemove_length_of_mem {C : Type} (m : List (Nat × C)) (i : Nat)
    (hd : (hmKeys m).Nodup) (h : i ∈ hmKeys m) :
    (hmRemove m i).length + 1 = m.length := by
  have hlen : (hmRemove m i).length = (hmKeys (hmRemove m i)).length :=
    (List.length_map _ _).symm
  rw [hlen, hmKeys_hmRemove]
  have hsplit := List.length_eq_length_filter_add (l := hmKeys m) (fun k => k == i)
  have hcnt : ((hmKeys m).filter (fun k => k == i)).length = 1 := by
    rw [← List.countP_eq_length_filter]
    have : List.countP (fun k => k == i) (hmKeys m) = List.count i (hmKeys m) := rfl
    rw [this]
    exact List.count_eq_one_of_mem hd h
  have hne : ((hmKeys m).filter (fun k => ! (k == i))).length
      = ((hmKeys m).filter (fun k => k != i)).length := by
    simp [bne]
  have hkm : m.length = (hmKeys m).length := (List.length_map _ _).symm
  rw [hkm, hsplit, hcnt, ← hne]
  omega

/-! ### Reachability invariants -/

/-- The identities currently present in the registry map of a world. -/
def keysOf {C : Type} (w : World C) : List Nat :=
  hmKeys w.st.controllers

/-- Invariant of a world reached after `t` track events, while the
identity counter has not wrapped (`t ≤ 2^32`): the counter equals `t`
(mod `2^32`), map keys and live-handle identities are duplicate-free,
they are the same set (the live-handle/map-entry bijection), and every
identity ever issued is below `t`. -/
structure WInv {C : Type} (w : World C) (t : Nat) : Prop where
  counter : w.st.next_id = t % u32Mod
  nodup_keys : (keysOf w).Nodup
  nodup_handles : w.handles.Nodup
  keys_iff_handles : ∀ i, i ∈ keysOf w ↔ i ∈ w.handles
  handles_bound : ∀ i ∈ w.handles, i < t

theorem WInv_init (C : Type) : WInv (World.init C) 0 := by
  refine ⟨rfl, List.nodup_nil, List.nodup_nil, ?_, ?_⟩
  · intro i
    constructor
    · intro h
      exact absurd h (List.not_mem_nil i)
    · intro h
      exact absurd h (List.not_mem_nil i)
  · intro i h
    exact absurd h (List.not_mem_nil i)

theorem keysOf_stepW_track {C : Type} (w : World C) (c : C) :
    keysOf (stepW w (Event.track c)) = hmKeys (hmInsert w.st.controllers w.st.next_id c) :=
  rfl

theorem WInv_step_track {C : Type} {w : World C} {t : Nat} (h : WInv w t)
    (hlt : t < u32Mod) (c : C) : WInv (stepW w (Event.track c)) (t + 1) := by
  have hid : w.st.next_id = t := by
    rw [h.counter, Nat.mod_eq_of_lt hlt]
  have hfresh : t ∉ keysOf w := by
    intro hmem
    have := h.handles_bound t ((h.keys_iff_handles t).mp hmem)
    exact absurd this (lt_irrefl t)
  constructor
  · show (w.st.next_id + 1) % u32Mod = (t + 1) % u32Mod
    rw [hid]
  · rw [keysOf_stepW_track, hid, hmKeys_hmInsert_of_not_mem _ _ _ hfresh]
    refine h.nodup_keys.append (List.nodup_singleton t) (List.disjoint_left.mpr ?_)
    intro a ha hb
    rw [List.mem_singleton] at hb
    exact hfresh (hb ▸ ha)
  · show (w.handles ++ [w.st.next_id]).Nodup
    rw [hid]
    refine h.nodup_handles.append (List.nodup_singleton t) (List.disjoint_left.mpr ?_)
    intro a ha hb
    rw [List.mem_singleton] at hb
    rw [hb] at ha
    exact absurd (h.handles_bound t ha) (lt_irrefl t)
  · intro i
    rw [keysOf_stepW_track, hid, hmKeys_hmInsert_of_not_mem _ _ _ hfresh]
    show i ∈ keysOf w ++ [t] ↔ i ∈ w.handles ++ [w.st.next_id]
    rw [hid, List.mem_append, List.mem_append, h.keys_iff_handles i]
  · intro i hi
    show i < t + 1
    rw [show (stepW w (Event.track c)).handles = w.handles ++ [w.st.next_id] from rfl, hid]
      at hi
    rcases List.mem_append.mp hi with hcase | hcase
    · exact Nat.lt_succ_of_lt (h.handles_bound i hcase)
    · rw [List.mem_singleton] at hcase
      rw [hcase]
      exact Nat.lt_succ_self t

theorem WInv_step_drop {C : Type} {w : World C} {t : Nat} (h : WInv w t)
    (i : Nat) : WInv (stepW w (Event.drop i)) t := by
  constructor
  · exact h.counter
  · show (hmKeys (hmRemove w.st.controllers i)).Nodup
    exact hmRemove_nodup_keys _ _ h.nodup_keys
  · exact h.nodup_handles.erase i
  · intro j
    show j ∈ hmKeys (hmRemove w.st.controllers i) ↔ j ∈ w.handles.erase i
    rw [hmKeys_hmRemove, List.mem_filter, h.nodup_handles.mem_erase_iff]
    rw [show (hmKeys w.st.controllers = keysOf w) from rfl, h.keys_iff_handles j]
    constructor
    · rintro ⟨hm, hne⟩
      exact ⟨by simpa using hne, hm⟩
    · rintro ⟨hne, hm⟩
      exact ⟨hm, by simpa using hne⟩
  · intro j hj
    exact h.handles_bound j (List.mem_of_mem_erase hj)

theorem numTracks_cons_track {C : Type} (c : C) (tr : List (Event C)) :
    numTracks (Event.track c :: tr) = numTracks tr + 1 := by
  simp [numTracks, List.countP_cons]

theorem numTracks_cons_drop {C : Type} (i : Nat) (tr : List (Event C)) :
    numTracks (Event.drop i :: tr) = numTracks tr := by
  simp [numTracks, List.countP_cons]

theorem WInv_runFrom {C : Type} (tr : List (Event C)) (w : World C) (t : Nat)
    (h : WInv w t) (hb : t + numTracks tr ≤ u32Mod) :
    WInv (runFrom w tr) (t + numTracks tr) := by
  induction tr generalizing w t with
  | nil =>
      simpa [runFrom, numTracks] using h
  | cons e rest ih =>
      cases e with
      | track c =>
          rw [numTracks_cons_track] at hb ⊢
          have hlt : t < u32Mod := by omega
          have hstep := WInv_step_track h hlt c
          have := ih (stepW w (Event.track c)) (t + 1) hstep (by omega)
          rw [show t + (numTracks rest + 1) = t + 1 + numTracks rest by omega]
          exact this
      | drop i =>
          rw [numTracks_cons_drop] at hb ⊢
          exact ih (stepW w (Event.drop i)) t (WInv_step_drop h i) hb

theorem WInv_run {C : Type} (tr : List (Event C)) (hb : numTracks tr ≤ u32Mod) :
    WInv (run tr) (numTracks tr) := by
  have := WInv_runFrom tr (World.init C) 0 (WInv_init C) (by omega)
  simpa [run] using this

/-- Map keys stay duplicate-free at every reachable state, with no bound
on the trace: an insertion either appends a genuinely fresh key or
replaces the value under an existing key in place. -/
theorem nodup_keys_run {C : Type} (tr : List (Event C)) :
    (keysOf (run tr)).Nodup := by
  suffices key : ∀ (tr : List (Event C)) (w : World C), (keysOf w).Nodup →
      (keysOf (runFrom w tr)).Nodup by
    exact key tr (World.init C) List.nodup_nil
  intro tr
  induction tr with
  | nil => intro w hw; exact hw
  | cons e rest ih =>
      intro w hw
      refine ih (stepW w e) ?_
      cases e with
      | track c =>
          rw [keysOf_stepW_track]
          exact hmInsert_nodup_keys _ _ _ hw
      | drop i =>
          exact hmRemove_nodup_keys _ _ hw

theorem foldl_snoc_eq_append {C : Type} (l : List C) (acc : List C) :
    l.foldl (fun a c => a ++ [c]) acc = acc ++ l := by
  induction l generalizing acc with
  | nil => simp
  | cons hd tl ih => simp [List.foldl_cons, ih]

/-- C1: in every reachable registry state, one pass of `for_each`
(iterating the guard returned by `lock`) invokes the action exactly on the
sequence of stored controllers: recording every argument of the action
yields precisely the value sequence of the map, the number of invocations
equals the live-entry count, and the entry of each live identity occurs exactly
once in the traversed map (no duplicates, no omissions). -/
theorem claim_C1_for_each_visits_once {C : Type} (tr : List (Event C)) :
    Tracker.for_each (run tr).st (fun a c => a ++ [c]) [] = hmValues (run tr).st.controllers ∧
    (hmValues (run tr).st.controllers).length = liveCount (run tr).st ∧
    (∀ i, (run tr).st.controllers.countP (fun p => p.1 == i) =
        if i ∈ hmKeys (run tr).st.controllers then 1 else 0) := by
  refine ⟨?_, ?_, ?_⟩
  · rw [Tracker.for_each, foldl_snoc_eq_append]
    simp [Tracker.guardIter]
  · simp [hmValues, liveCount]
  · intro i
    have hcnt : (run tr).st.controllers.countP (fun p => p.1 == i)
        = List.countP (fun k => k == i) (hmKeys (run tr).st.controllers) := by
      rw [hmKeys, List.countP_map]
      rfl
    have hcount : List.countP (fun k => k == i) (hmKeys (run tr).st.controllers)
        = List.count i (hmKeys (run tr).st.controllers) := rfl
    have hnd : (hmKeys (run tr).st.controllers).Nodup := nodup_keys_run tr
    by_cases hmem : i ∈ hmKeys (run tr).st.controllers
    · rw [if_pos hmem, hcnt, hcount]
      exact List.count_eq_one_of_mem hnd hmem
    · rw [if_neg hmem, hcnt, hcount]
      exact List.count_eq_zero.mpr hmem

/-! ### Pure registration traces -/

theorem stepW_track_st_controllers {C : Type} (w : World C) (c : C) :
    (stepW w (Event.track c)).st.controllers = hmInsert w.st.controllers w.st.next_id c :=
  rfl

theorem stepW_track_st_next_id {C : Type} (w : World C) (c : C) :
    (stepW w (Event.track c)).st.next_id = (w.st.next_id + 1) % u32Mod :=
  rfl

theorem stepW_track_handles {C : Type} (w : World C) (c : C) :
    (stepW w (Event.track c)).handles = w.handles ++ [w.st.next_id] :=
  rfl

theorem runFrom_append_trace {C : Type} (w : World C) (tr1 tr2 : List (Event C)) :
    runFrom w (tr1 ++ tr2) = runFrom (runFrom w tr1) tr2 :=
  List.foldl_append stepW w tr1 tr2

theorem tracksOnly_succ (C : Type) (cs : Nat → C) (n : Nat) :
    tracksOnly C cs (n + 1) = tracksOnly C cs n ++ [Event.track (cs n)] := by
  simp [tracksOnly, List.range_succ]

theorem numTracks_tracksOnly (C : Type) (cs : Nat → C) (n : Nat) :
    numTracks (tracksOnly C cs n) = n := by
  rw [numTracks, tracksOnly, List.countP_map]
  refine Eq.trans (List.countP_eq_length.mpr ?_) (List.length_range n)
  intro a _
  rfl

theorem runFrom_tracksOnly {C : Type} (cs : Nat → C) (n : Nat) (w : World C)
    (hw : w.st.next_id < u32Mod) :
    (runFrom w (tracksOnly C cs n)).st.next_id = (w.st.next_id + n) % u32Mod ∧
    (runFrom w (tracksOnly C cs n)).handles
      = w.handles ++ (List.range n).map (fun j => (w.st.next_id + j) % u32Mod) ∧
    (∀ i, i ∈ hmKeys (runFrom w (tracksOnly C cs n)).st.controllers ↔
      i ∈ hmKeys w.st.controllers ∨ ∃ j, j < n ∧ i = (w.st.next_id + j) % u32Mod) := by
  induction n with
  | zero =>
      refine ⟨?_, ?_, ?_⟩
      · simpa [tracksOnly, runFrom] using (Nat.mod_eq_of_lt hw).symm
      · simp [tracksOnly, runFrom]
      · intro i
        simp [tracksOnly, runFrom]
  | succ n ih =>
      obtain ⟨ihc, ihh, ihk⟩ := ih
      rw [tracksOnly_succ, runFrom_append_trace]
      set sn := runFrom w (tracksOnly C cs n) with hsn
      have hrun1 : runFrom sn [Event.track (cs n)] = stepW sn (Event.track (cs n)) := rfl
      refine ⟨?_, ?_, ?_⟩
      · rw [hrun1, stepW_track_st_next_id, ihc, Nat.mod_add_mod, Nat.add_assoc]
      · rw [hrun1, stepW_track_handles, ihh, ihc, List.range_succ, List.map_append,
          List.map_cons, List.map_nil, List.append_assoc]
      · intro i
        rw [hrun1, stepW_track_st_controllers, mem_hmKeys_hmInsert, ihk i, ihc]
        constructor
        · rintro (rfl | hm | ⟨j, hj, rfl⟩)
          · exact Or.inr ⟨n, Nat.lt_succ_self n, rfl⟩
          · exact Or.inl hm
          · exact Or.inr ⟨j, Nat.lt_succ_of_lt hj, rfl⟩
        · rintro (hm | ⟨j, hj, rfl⟩)
          · exact Or.inr (Or.inl hm)
          · rcases Nat.lt_succ_iff_lt_or_eq.mp hj with hlt | rfl
            · exact Or.inr (Or.inr ⟨j, hlt, rfl⟩)
            · exact Or.inl rfl

theorem run_tracksOnly {C : Type} (cs : Nat → C) (n : Nat) :
    (run (tracksOnly C cs n)).st.next_id = n % u32Mod ∧
    (run (tracksOnly C cs n)).handles = (List.range n).map (fun j => j % u32Mod) ∧
    (∀ i, i ∈ hmKeys (run (tracksOnly C cs n)).st.controllers ↔
      ∃ j, j < n ∧ i = j % u32Mod) := by
  have h0 : (World.init C).st.next_id < u32Mod := by
    show 0 < u32Mod
    decide
  obtain ⟨hc, hh, hk⟩ := runFrom_tracksOnly cs n (World.init C) h0
  refine ⟨?_, ?_, ?_⟩
  · simpa [run, World.init, Tracker.new] using hc
  · simpa [run, World.init, Tracker.new] using hh
  · intro i
    have := hk i
    simpa [run, World.init, Tracker.new, hmKeys] using this

theorem liveCount_run_tracksOnly {C : Type} (cs : Nat → C) (n : Nat) :
    liveCount (run (tracksOnly C cs n)).st = min n u32Mod := by
  induction n with
  | zero => simp [tracksOnly, run, runFrom, World.init, Tracker.new, liveCount]
  | succ n ih =>
      obtain ⟨hc, hh, hk⟩ := run_tracksOnly cs n
      rw [show run (tracksOnly C cs (n + 1))
            = stepW (run (tracksOnly C cs n)) (Event.track (cs n)) by
          rw [run, tracksOnly_succ, runFrom_append_trace]
          rfl]
      rw [liveCount, stepW_track_st_controllers, hc]
      by_cases hn : n < u32Mod
      · have hfresh : n % u32Mod ∉ hmKeys (run (tracksOnly C cs n)).st.controllers := by
          rw [Nat.mod_eq_of_lt hn]
          intro hmem
          obtain ⟨j, hj, he⟩ := (hk n).mp hmem
          have hjlt : j < u32Mod := lt_trans hj hn
          rw [Nat.mod_eq_of_lt hjlt] at he
          omega
        rw [hmInsert_length_of_not_mem _ _ _ hfresh]
        have : liveCount (run (tracksOnly C cs n)).st = min n u32Mod := ih
        rw [liveCount] at this
        rw [this]
        omega
      · have hmem : n % u32Mod ∈ hmKeys (run (tracksOnly C cs n)).st.controllers := by
          refine (hk (n % u32Mod)).mpr ⟨n % u32Mod, ?_, ?_⟩
          · have := Nat.mod_lt n (show 0 < u32Mod by decide)
            omega
          · rw [Nat.mod_eq_of_lt (Nat.mod_lt n (show 0 < u32Mod by decide))]
        rw [hmInsert_length_of_mem _ _ _ hmem]
        have : liveCount (run (tracksOnly C cs n)).st = min n u32Mod := ih
        rw [liveCount] at this
        rw [this]
        omega

/-- Constant controller sequence used in concrete traces. -/
def constZero : Nat → Nat := fun _ => 0

theorem map_mod_range (n : Nat) (h : n ≤ u32Mod) :
    (List.range n).map (fun j => j % u32Mod) = List.range n := by
  refine Eq.trans (List.map_congr_left ?_) (List.map_id' _)
  intro a ha
  exact Nat.mod_eq_of_lt (lt_of_lt_of_le (List.mem_range.mp ha) h)

theorem overflow_handles :
    (run (tracksOnly Nat constZero (u32Mod + 1))).handles = List.range u32Mod ++ [0] := by
  obtain ⟨-, hh, -⟩ := run_tracksOnly constZero (u32Mod + 1)
  rw [hh, List.range_succ, List.map_append, map_mod_range u32Mod (le_refl u32Mod)]
  simp [Nat.mod_self]

/-- The identities returned by the successive `register` calls of a trace,
in order of issue: each `track` event contributes the identity field of the
handle it returns (destruction events contribute nothing). -/
def idsIssuedFrom {C : Type} (w : World C) : List (Event C) → List Nat
  | [] => []
  | Event.track c :: rest =>
      (Tracker.track w.st () c).1.id :: idsIssuedFrom (stepW w (Event.track c)) rest
  | Event.drop i :: rest => idsIssuedFrom (stepW w (Event.drop i)) rest

/-- The identities issued along a trace started from a fresh tracker. -/
def idsIssued {C : Type} (tr : List (Event C)) : List Nat :=
  idsIssuedFrom (World.init C) tr

theorem idsIssuedFrom_nil {C : Type} (w : World C) : idsIssuedFrom w [] = [] :=
  rfl

theorem idsIssuedFrom_cons_track {C : Type} (w : World C) (c : C) (rest : List (Event C)) :
    idsIssuedFrom w (Event.track c :: rest)
      = w.st.next_id :: idsIssuedFrom (stepW w (Event.track c)) rest :=
  rfl

theorem idsIssuedFrom_cons_drop {C : Type} (w : World C) (i : Nat) (rest : List (Event C)) :
    idsIssuedFrom w (Event.drop i :: rest) = idsIssuedFrom (stepW w (Event.drop i)) rest :=
  rfl

theorem idsIssuedFrom_prewrap {C : Type} (tr : List (Event C)) (w : World C) (t : Nat)
    (hc : w.st.next_id = t % u32Mod) (hb : t + numTracks tr ≤ u32Mod) :
    idsIssuedFrom w tr = (List.range (numTracks tr)).map (fun j => t + j) := by
  induction tr generalizing w t with
  | nil => simp [idsIssuedFrom_nil, numTracks]
  | cons e rest ih =>
      cases e with
      | track c =>
          rw [numTracks_cons_track] at hb ⊢
          have ht : t < u32Mod := by omega
          have hc2 : (stepW w (Event.track c)).st.next_id = (t + 1) % u32Mod := by
            rw [stepW_track_st_next_id, hc, Nat.mod_add_mod]
          rw [idsIssuedFrom_cons_track, hc, Nat.mod_eq_of_lt ht,
            ih (stepW w (Event.track c)) (t + 1) hc2 (by omega),
            List.range_succ_eq_map, List.map_cons, List.map_map]
          refine congrArg₂ List.cons rfl (List.map_congr_left ?_)
          intro a _
          show t + 1 + a = t + (a + 1)
          omega
      | drop i =>
          rw [numTracks_cons_drop] at hb ⊢
          rw [idsIssuedFrom_cons_drop]
          exact ih (stepW w (Event.drop i)) t hc hb

theorem handles_runFrom_no_drops {C : Type} (tr : List (Event C)) (w : World C)
    (hnd : ∀ e ∈ tr, ∀ i, e ≠ Event.drop i) :
    (runFrom w tr).handles = w.handles ++ idsIssuedFrom w tr := by
  induction tr generalizing w with
  | nil => simp [runFrom, idsIssuedFrom_nil]
  | cons e rest ih =>
      cases e with
      | track c =>
          have hstep : runFrom w (Event.track c :: rest)
              = runFrom (stepW w (Event.track c)) rest := rfl
          rw [hstep, ih (stepW w (Event.track c))
              (fun e he i => hnd e (List.mem_cons_of_mem _ he) i),
            stepW_track_handles, idsIssuedFrom_cons_track, List.append_assoc]
          rfl
      | drop i =>
          exact absurd rfl (hnd (Event.drop i) (List.mem_cons_self _ _) i)

/-- C4 counterexample: the claim fails as stated.  After `2^32 + 1`
`register` calls on one registry the returned identities are no longer
pairwise distinct: the wrapping `u32` counter reissues identity 0 on the
`2^32`-th call. -/
theorem claim_C4_counterexample :
    ¬ (idsIssued (tracksOnly Nat constZero (u32Mod + 1))).Nodup := by
  have hnodrop : ∀ e ∈ tracksOnly Nat constZero (u32Mod + 1), ∀ i, e ≠ Event.drop i := by
    intro e he i
    obtain ⟨j, -, rfl⟩ := List.mem_map.mp he
    intro hcontra
    exact Event.noConfusion hcontra
  have hbridge := handles_runFrom_no_drops (tracksOnly Nat constZero (u32Mod + 1))
      (World.init Nat) hnodrop
  have hrun : (run (tracksOnly Nat constZero (u32Mod + 1))).handles
      = idsIssued (tracksOnly Nat constZero (u32Mod + 1)) := by
    show (runFrom (World.init Nat) (tracksOnly Nat constZero (u32Mod + 1))).handles
        = idsIssued (tracksOnly Nat constZero (u32Mod + 1))
    rw [hbridge]
    show [] ++ idsIssuedFrom (World.init Nat) (tracksOnly Nat constZero (u32Mod + 1))
        = idsIssued (tracksOnly Nat constZero (u32Mod + 1))
    rw [List.nil_append]
    rfl
  have hids : idsIssued (tracksOnly Nat constZero (u32Mod + 1))
      = List.range u32Mod ++ [0] := by
    rw [← hrun]
    exact overflow_handles
  rw [hids]
  intro hnd
  have hcle := List.nodup_iff_count_le_one.mp hnd 0
  rw [List.count_append] at hcle
  have h0 : List.count 0 (List.range u32Mod) = 1 :=
    List.count_eq_one_of_mem (List.nodup_range u32Mod)
      (List.mem_range.mpr (by decide))
  rw [h0] at hcle
  simp at hcle

/-- C4 (amended: identities are pairwise distinct, monotonically increasing
from zero and never reused — even after the corresponding entry has been
removed — as long as the total number of registrations over the registry
lifetime does not exceed `2^32`, the range of the `u32` counter; beyond
that the counter wraps and identities repeat): along every trace of
`track` calls and handle destructions, interleaved arbitrarily, with at
most `2^32` registrations, the identities returned by the successive
`register` calls are exactly `0, 1, ..., n-1`. -/
theorem claim_C4_ids_distinct_prewrap {C : Type} (tr : List (Event C))
    (h : numTracks tr ≤ u32Mod) :
    idsIssued tr = List.range (numTracks tr) ∧
    (idsIssued tr).Nodup ∧
    List.Pairwise (· < ·) (idsIssued tr) := by
  have key := idsIssuedFrom_prewrap tr (World.init C) 0 (Nat.zero_mod u32Mod).symm
    (by omega)
  have hids : idsIssued tr = List.range (numTracks tr) := by
    show idsIssuedFrom (World.init C) tr = List.range (numTracks tr)
    rw [key]
    refine Eq.trans (List.map_congr_left ?_) (List.map_id' _)
    intro a _
    exact Nat.zero_add a
  rw [hids]
  exact ⟨rfl, List.nodup_range _, List.pairwise_lt_range _⟩

theorem claim_C4_ids_distinct_prewrap_witness :
    numTracks [Event.track (5 : Nat), Event.drop 0, Event.track 7] ≤ u32Mod ∧
    (idsIssued [Event.track (5 : Nat), Event.drop 0, Event.track 7]
       = List.range (numTracks [Event.track (5 : Nat), Event.drop 0, Event.track 7]) ∧
     (idsIssued [Event.track (5 : Nat), Event.drop 0, Event.track 7]).Nodup ∧
     List.Pairwise (· < ·)
       (idsIssued [Event.track (5 : Nat), Event.drop 0, Event.track 7])) :=
  ⟨by decide,
   claim_C4_ids_distinct_prewrap [Event.track 5, Event.drop 0, Event.track 7] (by decide)⟩

/-- C5 counterexample: the claim fails as stated.  A sequence of
`2^32 + 1` `track` calls with no destruction leaves `2^32` live entries,
not `2^32 + 1`: the wrapped registration replaces the still-live entry
keyed 0 instead of adding a new one. -/
theorem claim_C5_counterexample :
    liveCount (run (tracksOnly Nat constZero (u32Mod + 1))).st
      ≠ numTracks (tracksOnly Nat constZero (u32Mod + 1)) := by
  have h1 := liveCount_run_tracksOnly constZero (u32Mod + 1)
  rw [min_eq_right (by omega : u32Mod ≤ u32Mod + 1)] at h1
  rw [h1, numTracks_tracksOnly]
  omega

/-- C5 (amended: holds as long as the number of `track` calls stays within
the `u32` counter range `2^32`): each `track` call on a registry reached
with fewer than `2^32` registrations increases the live-entry count by
exactly one, and `n ≤ 2^32` `track` calls from a fresh tracker with no
destruction leave exactly `n` live entries. -/
theorem claim_C5_track_count_prewrap {C : Type} (cs : Nat → C) (n : Nat)
    (tr : List (Event C)) (c : C) (h : n ≤ u32Mod) (hb : numTracks tr < u32Mod) :
    liveCount (run (tracksOnly C cs n)).st = n ∧
    liveCount (stepW (run tr) (Event.track c)).st = liveCount (run tr).st + 1 := by
  constructor
  · have := liveCount_run_tracksOnly cs n
    rwa [min_eq_left h] at this
  · have hw := WInv_run tr (le_of_lt hb)
    have hfresh : (run tr).st.next_id ∉ hmKeys (run tr).st.controllers := by
      rw [hw.counter, Nat.mod_eq_of_lt hb]
      intro hmem
      have := hw.handles_bound _ ((hw.keys_iff_handles _).mp hmem)
      exact absurd this (lt_irrefl _)
    show (stepW (run tr) (Event.track c)).st.controllers.length
        = (run tr).st.controllers.length + 1
    rw [stepW_track_st_controllers, hmInsert_length_of_not_mem _ _ _ hfresh]

theorem claim_C5_track_count_prewrap_witness :
    (3 ≤ u32Mod ∧ numTracks [Event.track (5 : Nat)] < u32Mod) ∧
    (liveCount (run (tracksOnly Nat constZero 3)).st = 3 ∧
     liveCount (stepW (run [Event.track (5 : Nat)]) (Event.track 7)).st
       = liveCount (run [Event.track (5 : Nat)]).st + 1) :=
  ⟨⟨by decide, by decide⟩,
   claim_C5_track_count_prewrap constZero 3 [Event.track 5] 7 (by decide) (by decide)⟩

/-! ### Permanence of removal before counter wrap -/

theorem stepW_drop_st_controllers {C : Type} (w : World C) (i : Nat) :
    (stepW w (Event.drop i)).st.controllers = hmRemove w.st.controllers i :=
  rfl

theorem keys_absent_stable {C : Type} (tr : List (Event C)) (w : World C) (t i : Nat)
    (hw : WInv w t) (hb : t + numTracks tr ≤ u32Mod) (hi : i < t)
    (habs : i ∉ keysOf w) : i ∉ keysOf (runFrom w tr) := by
  induction tr generalizing w t with
  | nil => exact habs
  | cons e rest ih =>
      cases e with
      | track c =>
          rw [numTracks_cons_track] at hb
          have hlt : t < u32Mod := by omega
          have hw' := WInv_step_track hw hlt c
          refine ih (stepW w (Event.track c)) (t + 1) hw' (by omega) (by omega) ?_
          show i ∉ hmKeys (stepW w (Event.track c)).st.controllers
          rw [stepW_track_st_controllers, mem_hmKeys_hmInsert]
          have hid : w.st.next_id = t := by
            rw [hw.counter, Nat.mod_eq_of_lt hlt]
          rintro (he | hm)
          · rw [hid] at he
            omega
          · exact habs hm
      | drop j =>
          rw [numTracks_cons_drop] at hb
          refine ih (stepW w (Event.drop j)) t (WInv_step_drop hw j) hb hi ?_
          show i ∉ hmKeys (stepW w (Event.drop j)).st.controllers
          rw [stepW_drop_st_controllers, hmKeys_hmRemove]
          intro hmem
          exact habs (List.mem_of_mem_filter hmem)

/-- C2 counterexample: the claim fails as stated.  On the trace that
registers a controller (receiving identity 0), destroys that handle, and
then performs `2^32` further registrations, the identity 0 of the destroyed
handle is indeed absent right after the destruction, but it is present
in the registry map again at the end: the wrapped counter reissues
identity 0, so the identity is not permanently absent from subsequent
iterations (an entry reappears after being unregistered). -/
theorem claim_C2_counterexample :
    (0 : Nat) ∉ keysOf (run [Event.track (0 : Nat), Event.drop 0]) ∧
    (0 : Nat) ∈ keysOf
      (run (Event.track (0 : Nat) :: Event.drop 0 :: tracksOnly Nat constZero u32Mod)) := by
  constructor
  · decide
  · have hw2 : run [Event.track (0 : Nat), Event.drop 0]
        = { st := { controllers := [], next_id := 1 }, handles := [] } := by
      rfl
    have hcons : Event.track (0 : Nat) :: Event.drop 0 :: tracksOnly Nat constZero u32Mod
        = [Event.track (0 : Nat), Event.drop 0] ++ tracksOnly Nat constZero u32Mod := by
      rw [List.cons_append, List.cons_append, List.nil_append]
    have hsplit : run (Event.track (0 : Nat) :: Event.drop 0 :: tracksOnly Nat constZero u32Mod)
        = runFrom (run [Event.track (0 : Nat), Event.drop 0]) (tracksOnly Nat constZero u32Mod) := by
      rw [hcons]
      exact runFrom_append_trace (World.init Nat) [Event.track 0, Event.drop 0]
        (tracksOnly Nat constZero u32Mod)
    rw [hsplit, hw2]
    obtain ⟨-, -, hk⟩ := runFrom_tracksOnly constZero u32Mod
        ({ st := { controllers := [], next_id := 1 }, handles := [] } : World Nat)
        (by decide)
    refine (hk 0).mpr (Or.inr ⟨u32Mod - 1, ?_, ?_⟩)
    · decide
    · decide

/-- C2 (amended: holds while the total number of registrations stays
within the `u32` counter range `2^32`; after a wrap the destroyed
identity can be reissued): destroying a live handle removes exactly one
entry (the live-entry count drops by one), its identity is absent
immediately afterwards, and remains absent from the map at every later
point of any continuation whose registrations keep the total within
`2^32`. -/
theorem claim_C2_drop_decrements_permanent {C : Type} (tr1 tr2 : List (Event C))
    (i : Nat) (hb : numTracks tr1 + numTracks tr2 ≤ u32Mod)
    (hi : i ∈ (run tr1).handles) :
    liveCount (stepW (run tr1) (Event.drop i)).st + 1 = liveCount (run tr1).st ∧
    i ∉ keysOf (stepW (run tr1) (Event.drop i)) ∧
    i ∉ keysOf (runFrom (stepW (run tr1) (Event.drop i)) tr2) := by
  have hw := WInv_run tr1 (by omega)
  have hikeys : i ∈ keysOf (run tr1) := (hw.keys_iff_handles i).mpr hi
  have habs : i ∉ keysOf (stepW (run tr1) (Event.drop i)) := by
    show i ∉ hmKeys (stepW (run tr1) (Event.drop i)).st.controllers
    rw [stepW_drop_st_controllers]
    exact hmRemove_not_mem_keys _ _
  refine ⟨?_, habs, ?_⟩
  · show (stepW (run tr1) (Event.drop i)).st.controllers.length + 1
        = (run tr1).st.controllers.length
    rw [stepW_drop_st_controllers]
    exact hmRemove_length_of_mem _ _ hw.nodup_keys hikeys
  · refine keys_absent_stable tr2 (stepW (run tr1) (Event.drop i)) (numTracks tr1) i
      (WInv_step_drop hw i) (by omega) (hw.handles_bound i hi) habs

theorem claim_C2_drop_decrements_permanent_witness :
    (numTracks [Event.track (5 : Nat)] + numTracks [Event.track (7 : Nat)] ≤ u32Mod ∧
     0 ∈ (run [Event.track (5 : Nat)]).handles) ∧
    (liveCount (stepW (run [Event.track (5 : Nat)]) (Event.drop 0)).st + 1
       = liveCount (run [Event.track (5 : Nat)]).st ∧
     (0 : Nat) ∉ keysOf (stepW (run [Event.track (5 : Nat)]) (Event.drop 0)) ∧
     (0 : Nat) ∉ keysOf (runFrom (stepW (run [Event.track (5 : Nat)]) (Event.drop 0))
        [Event.track (7 : Nat)])) :=
  ⟨⟨by decide, by decide⟩,
   claim_C2_drop_decrements_permanent [Event.track 5] [Event.track 7] 0
     (by decide) (by decide)⟩

/-- C3 counterexample: the claim fails as stated.  After `2^32 + 1`
`track` calls with all handles kept alive, identity 0 keys exactly one
map entry but is held by two distinct live handles (the first and the
last), so live handles and map entries are not in bijection. -/
theorem claim_C3_counterexample :
    (run (tracksOnly Nat constZero (u32Mod + 1))).handles.count 0 = 2 ∧
    (run (tracksOnly Nat constZero (u32Mod + 1))).st.controllers.countP
      (fun p => p.1 == 0) = 1 := by
  constructor
  · rw [overflow_handles, List.count_append]
    have h0 : List.count 0 (List.range u32Mod) = 1 :=
      List.count_eq_one_of_mem (List.nodup_range u32Mod)
        (List.mem_range.mpr (by decide))
    rw [h0]
    rfl
  · obtain ⟨-, -, hk⟩ := run_tracksOnly constZero (u32Mod + 1)
    have hnd : (hmKeys (run (tracksOnly Nat constZero (u32Mod + 1))).st.controllers).Nodup :=
      nodup_keys_run _
    have hmem : 0 ∈ hmKeys (run (tracksOnly Nat constZero (u32Mod + 1))).st.controllers :=
      (hk 0).mpr ⟨0, by decide, by decide⟩
    have hcnt : (run (tracksOnly Nat constZero (u32Mod + 1))).st.controllers.countP
          (fun p => p.1 == 0)
        = List.countP (fun k => k == 0)
            (hmKeys (run (tracksOnly Nat constZero (u32Mod + 1))).st.controllers) := by
      rw [hmKeys, List.countP_map]
      rfl
    have hcount : List.countP (fun k => k == 0)
          (hmKeys (run (tracksOnly Nat constZero (u32Mod + 1))).st.controllers)
        = List.count 0 (hmKeys (run (tracksOnly Nat constZero (u32Mod + 1))).st.controllers) :=
      rfl
    rw [hcnt, hcount]
    exact List.count_eq_one_of_mem hnd hmem

/-- C3 (amended: the bijection between live handles and map entries holds
at every state reachable with at most `2^32` registrations in total, i.e.
before the `u32` identity counter can wrap): at every such state an
identity is in the map iff some live handle holds it, each map-entry
identity is held by exactly one live handle, the identity of each live
handle keys exactly one map entry, and the handle identities are a permutation
of the map keys. -/
theorem claim_C3_bijection_prewrap {C : Type} (tr : List (Event C))
    (h : numTracks tr ≤ u32Mod) :
    (∀ i, i ∈ keysOf (run tr) ↔ i ∈ (run tr).handles) ∧
    (∀ i ∈ keysOf (run tr), (run tr).handles.count i = 1) ∧
    (∀ i ∈ (run tr).handles,
      (run tr).st.controllers.countP (fun p => p.1 == i) = 1) ∧
    (run tr).handles.Perm (keysOf (run tr)) := by
  have hw := WInv_run tr h
  refine ⟨hw.keys_iff_handles, ?_, ?_, ?_⟩
  · intro i hi
    exact List.count_eq_one_of_mem hw.nodup_handles ((hw.keys_iff_handles i).mp hi)
  · intro i hi
    have hcnt : (run tr).st.controllers.countP (fun p => p.1 == i)
        = List.countP (fun k => k == i) (hmKeys (run tr).st.controllers) := by
      rw [hmKeys, List.countP_map]
      rfl
    have hcount : List.countP (fun k => k == i) (hmKeys (run tr).st.controllers)
        = List.count i (hmKeys (run tr).st.controllers) := rfl
    rw [hcnt, hcount]
    exact List.count_eq_one_of_mem hw.nodup_keys ((hw.keys_iff_handles i).mpr hi)
  · exact (List.perm_ext_iff_of_nodup hw.nodup_handles hw.nodup_keys).mpr
      (fun a => (hw.keys_iff_handles a).symm)

theorem claim_C3_bijection_prewrap_witness :
    numTracks [Event.track (5 : Nat), Event.track 7, Event.drop 0] ≤ u32Mod ∧
    ((∀ i, i ∈ keysOf (run [Event.track (5 : Nat), Event.track 7, Event.drop 0])
        ↔ i ∈ (run [Event.track (5 : Nat), Event.track 7, Event.drop 0]).handles) ∧
     (∀ i ∈ keysOf (run [Event.track (5 : Nat), Event.track 7, Event.drop 0]),
        (run [Event.track (5 : Nat), Event.track 7, Event.drop 0]).handles.count i = 1) ∧
     (∀ i ∈ (run [Event.track (5 : Nat), Event.track 7, Event.drop 0]).handles,
        (run [Event.track (5 : Nat), Event.track 7, Event.drop 0]).st.controllers.countP
          (fun p => p.1 == i) = 1) ∧
     (run [Event.track (5 : Nat), Event.track 7, Event.drop 0]).handles.Perm
        (keysOf (run [Event.track (5 : Nat), Event.track 7, Event.drop 0]))) :=
  ⟨by decide,
   claim_C3_bijection_prewrap [Event.track 5, Event.track 7, Event.drop 0] (by decide)⟩
